import Mathlib

/-!
Verification of the plotify plant query engine
(`src/plotify-pro/plantQueryEngine.js`).

The JavaScript source is shallowly embedded: records are association lists
from field name to string value (the record collection is plain JSON with
string fields), JavaScript `Set`s of record ordinals become duplicate-free
`List Nat` in insertion order, and plain objects used as maps become
association lists in insertion order.  Every definition is translated
directly from the source file; lemmas characterising the indexes and the
query stages follow, and the claim theorems come last.
-/

namespace Plotify

/-! ## Character-level helpers for the tokenizer -/

/-- ASCII lower-casing of one character, as `String.prototype.toLowerCase`
acts on the characters relevant here.  (Characters outside ASCII are
replaced by whitespace by the very next step of the pipeline, in the
source and in this embedding alike, so the ASCII case map is the only
part of the JavaScript case map that can reach the output.) -/
def jsToLower (c : Char) : Char :=
  if 'A' ≤ c ∧ c ≤ 'Z' then Char.ofNat (c.toNat + 32) else c

/-- membership in the JavaScript regex class `\s` (ECMAScript WhiteSpace
and LineTerminator code points). -/
def isJsWs (c : Char) : Bool :=
  c == ' ' || c == '\t' || c == '\n' || c.toNat == 11 || c.toNat == 12 ||
  c == '\r' || c.toNat == 0xa0 || c.toNat == 0x1680 ||
  (0x2000 ≤ c.toNat && c.toNat ≤ 0x200a) || c.toNat == 0x2028 ||
  c.toNat == 0x2029 || c.toNat == 0x202f || c.toNat == 0x205f ||
  c.toNat == 0x3000 || c.toNat == 0xfeff

/-- membership in the character class `[a-z0-9]`. -/
def isLowerAlnum (c : Char) : Bool :=
  ('a' ≤ c && c ≤ 'z') || ('0' ≤ c && c ≤ '9')

/-- the `.replace(/[^a-z0-9\s]/g, " ")` step, one character at a time:
every character outside `[a-z0-9]` and whitespace becomes one space. -/
def replaceNonAlnum (c : Char) : Char :=
  if isLowerAlnum c || isJsWs c then c else ' '

/-- splitting a character list at every separator character.  The source
splits on `/\s+/` (runs of whitespace); splitting at each whitespace
character instead yields the same fields plus extra empty fields between
adjacent separators, and every empty field is removed by the token-length
filter that immediately follows in `tokenize`. -/
def splitChar (p : Char → Bool) : List Char → List (List Char)
  | [] => [[]]
  | c :: cs =>
    if p c then [] :: splitChar p cs
    else
      match splitChar p cs with
      | [] => [[c]]
      | g :: gs => (c :: g) :: gs

/-- lowercasing by `String.prototype.toLowerCase` over a whole string. -/
def strLower (s : String) : String :=
  String.mk (s.data.map jsToLower)

/-- translation of `tokenize` (plantQueryEngine.js lines 4-11):
`if (!text) return []`, then lowercase, replace every character outside
`[a-z0-9\s]` with a space, split on whitespace and keep only tokens of
length greater than one.  `none` stands for an absent (undefined/null)
argument, `some ""` for the empty string; both are falsy in `!text`. -/
def tokenize : Option String → List String
  | none => []
  | some s =>
    if s = "" then []
    else
      ((splitChar isJsWs ((s.data.map jsToLower).map replaceNonAlnum)).map
          (fun g => String.mk g)).filter (fun t => t.length > 1)

/-- grouping a character list into the maximal runs of non-separator
characters, in order; used only by `tokenizeSpec` below. -/
def wordsBy (p : Char → Bool) : List Char → List (List Char)
  | [] => []
  | [c] => if p c then [] else [[c]]
  | c :: d :: cs =>
    if p c then wordsBy p (d :: cs)
    else
      if p d then [c] :: wordsBy p (d :: cs)
      else
        match wordsBy p (d :: cs) with
        | [] => [[c]]
        | g :: gs => (c :: g) :: gs

/-- the reference tokenization pipeline exactly as the specification words
it: convert to lowercase; replace every character outside `[a-z0-9]` and
whitespace with a single whitespace; split on runs of whitespace; discard
tokens of length < 2. -/
def tokenizeSpec (s : String) : List String :=
  ((wordsBy isJsWs ((s.data.map jsToLower).map replaceNonAlnum)).map
      (fun g => String.mk g)).filter (fun t => 2 ≤ t.length)

/-! ## Data model -/

/-- one record of the loaded JSON collection: a mapping from field name to
string value, with absent fields simply missing from the list. -/
abbrev Record := List (String × String)

/-- a JavaScript value as it can arrive in the `filters` argument of
`query`: a string or a number.  (Record fields themselves are strings in
the loaded collection.) -/
inductive Value : Type
  | vstr (s : String)
  | vnum (n : Int)
  deriving DecidableEq, Repr

/-- the shared normalization applied to filter values and (at build time)
to record field values: `typeof v === "string" ? v.toLowerCase() : v`. -/
def normValue : Value → Value
  | .vstr s => .vstr (strLower s)
  | .vnum n => .vnum n

/-- coercion of a value to a JavaScript object property key, as performed
implicitly by `this.fieldIndex[field][v]`. -/
def valueKey : Value → String
  | .vstr s => s
  | .vnum n => toString n

/-- JavaScript strict equality `record[field] === value` between a
possibly-absent string field and a filter value: `undefined` is never
strictly equal to a string or number, and a string equals only the same
string. -/
def jsStrictEq : Option String → Value → Bool
  | some s, .vstr t => s == t
  | _, _ => false

/-! ## Set and map primitives (JavaScript `Set` / plain-object maps) -/

/-- translation of `Set.prototype.add`: append the element unless already present. -/
def jsSetAdd (s : List Nat) (i : Nat) : List Nat :=
  if i ∈ s then s else s ++ [i]

/-- translation of `[...new Set(tokens)]`: de-duplicate keeping first occurrences. -/
def jsSetList (l : List String) : List String :=
  l.foldl (fun acc t => if t ∈ acc then acc else acc ++ [t]) []

/-- assignment `map[key] = v` on a plain object modelled as an association list:
overwrite the existing entry in place, or append a new one. -/
def jsObjSet {α : Type} (m : List (String × α)) (k : String) (v : α) :
    List (String × α) :=
  match m with
  | [] => [(k, v)]
  | (k', v') :: rest =>
    if k = k' then (k, v) :: rest else (k', v') :: jsObjSet rest k v

/-- an inverted-index or field-value map: token (or key) to posting set. -/
abbrev PostingMap := List (String × List Nat)

/-- the posting set stored under a key, the empty set when the key is
absent (`this.invertedIndex[t] || new Set()`). -/
def postingOf (m : PostingMap) (k : String) : List Nat :=
  (List.lookup k m).getD []

/-- translation of `_addToIndex` (lines 21-24): create the posting set if
missing, then add the ordinal. -/
def mapAdd (m : PostingMap) (k : String) (i : Nat) : PostingMap :=
  jsObjSet m k (jsSetAdd (postingOf m k) i)

/-- the two-level field index: field name to (value key to posting set). -/
abbrev FieldIdx := List (String × PostingMap)

/-- lines 46-48: create the per-field object if missing, then insert the
ordinal under the value key. -/
def fieldMapAdd (fi : FieldIdx) (field key : String) (i : Nat) : FieldIdx :=
  jsObjSet fi field (mapAdd ((List.lookup field fi).getD []) key i)

/-- the posting set of the field index under (field, key); empty when
either level is missing. -/
def fieldPosting (fi : FieldIdx) (field key : String) : List Nat :=
  postingOf ((List.lookup field fi).getD []) key

/-! ## Index construction (`_buildIndexes`, lines 26-52) -/

/-- the de-duplicated searchable token set of one record: the tokens of
the five text fields concatenated in source order, then `[...new Set _]`. -/
def recordTokens (rec : Record) : List String :=
  jsSetList
    (tokenize (List.lookup "common_name" rec) ++
     tokenize (List.lookup "scientific_name" rec) ++
     tokenize (List.lookup "family" rec) ++
     tokenize (List.lookup "plant_type" rec) ++
     tokenize (List.lookup "sun_exposure" rec))

/-- registering record `i` under each of its unique tokens (lines 36-39). -/
def addInvEntries (m : PostingMap) (i : Nat) (rec : Record) : PostingMap :=
  (recordTokens rec).foldl (fun m' t => mapAdd m' t i) m

/-- the fixed filter-field whitelist of line 42. -/
def whitelist : List String :=
  ["plant_id", "family", "plant_type", "scientific_name"]

/-- registering record `i` in the field index (lines 42-50): for each
whitelisted field, if the value is truthy (present and non-empty) insert
`i` under the lowercased value. -/
def addFieldEntries (fi : FieldIdx) (i : Nat) (rec : Record) : FieldIdx :=
  whitelist.foldl
    (fun fi' field =>
      match List.lookup field rec with
      | some s => if s = "" then fi' else fieldMapAdd fi' field (strLower s) i
      | none => fi')
    fi

/-- one `records.forEach((rec, i) => ...)` step builds both indexes. -/
def buildStep (acc : PostingMap × FieldIdx) (p : Nat × Record) :
    PostingMap × FieldIdx :=
  (addInvEntries acc.1 p.1 p.2, addFieldEntries acc.2 p.1 p.2)

/-- translation of `_buildIndexes`: a single pass over the records with
their ordinals. -/
def buildIndexes (records : List Record) : PostingMap × FieldIdx :=
  records.enum.foldl buildStep ([], [])

/-- the engine state after the constructor ran: the record collection and
the two derived indexes. -/
structure PlantQueryEngine : Type where
  records : List Record
  invertedIndex : PostingMap
  fieldIndex : FieldIdx

/-- translation of the constructor (lines 14-19). -/
def PlantQueryEngine.build (records : List Record) : PlantQueryEngine :=
  { records := records
    invertedIndex := (buildIndexes records).1
    fieldIndex := (buildIndexes records).2 }

/-! ## Query evaluation (`query`, lines 54-89) -/

/-- translation of `matchSet = new Set([...matchSet, ...s])`: union keeping insertion
order. -/
def jsUnionInto (acc s : List Nat) : List Nat :=
  s.foldl (fun a x => if x ∈ a then a else a ++ [x]) acc

/-- the full-text stage (lines 57-69): skipped when `q` is falsy or
tokenizes to nothing, otherwise the candidates are intersected with the
union of the posting sets of the query terms (missing term, empty set). -/
def fulltextStage (e : PlantQueryEngine) (q : Option String)
    (cands : List Nat) : List Nat :=
  match q with
  | none => cands
  | some s =>
    if s = "" then cands
    else
      let tokens := tokenize (some s)
      if tokens.length > 0 then
        let postings := tokens.map (fun t => postingOf e.invertedIndex t)
        let matchSet := postings.foldl jsUnionInto []
        cands.filter (fun x => decide (x ∈ matchSet))
      else cands

/-- one filter step (lines 72-82): when the field index has an entry for
the field, intersect with the posting set of the normalized value
(missing key, empty set); otherwise intersect by a raw strict-equality
scan of the record field. -/
def applyFilter (e : PlantQueryEngine) (cands : List Nat)
    (fv : String × Value) : List Nat :=
  match List.lookup fv.1 e.fieldIndex with
  | some fmap =>
    cands.filter
      (fun x => decide (x ∈ postingOf fmap (valueKey (normValue fv.2))))
  | none =>
    cands.filter
      (fun idx => jsStrictEq (List.lookup fv.1 (e.records.getD idx [])) fv.2)

/-- the filter stage: the filter pairs applied in the caller-supplied
order. -/
def filterStage (e : PlantQueryEngine) (filters : List (String × Value))
    (cands : List Nat) : List Nat :=
  filters.foldl (applyFilter e) cands

/-- the final candidate set of a query before pagination: all ordinals,
restricted by the full-text stage, then by the filter stage. -/
def finalCandidates (e : PlantQueryEngine) (q : Option String)
    (filters : List (String × Value)) : List Nat :=
  filterStage e filters (fulltextStage e q (List.range e.records.length))

/-- clamping of one bound of `Array.prototype.slice`: a negative index is
taken from the end of the array, and both are clipped to `[0, len]`. -/
def jsSliceBound (len : Nat) (i : Int) : Nat :=
  if i < 0 then (max ((len : Int) + i) 0).toNat else min i.toNat len

/-- translation of `Array.prototype.slice(start, stop)` with JavaScript index
normalization. -/
def jsSlice {α : Type} (l : List α) (start stop : Int) : List α :=
  (l.drop (jsSliceBound l.length start)).take
    (jsSliceBound l.length stop - jsSliceBound l.length start)

/-- translation of `query({ q = null, filters = {}, limit = 20,
offset = 0 })`: the destructuring defaults are applied for omitted
arguments, then the three stages run and the candidate records are
sliced.  `filters` is an association list in the insertion
order of the filters object, which is the iteration order of `Object.entries` for the
non-index-like keys used here. -/
def PlantQueryEngine.query (e : PlantQueryEngine) (q : Option String)
    (filters : List (String × Value)) (limit? offset? : Option Int) :
    List Record :=
  let limit := limit?.getD 20
  let offset := offset?.getD 0
  let results := (finalCandidates e q filters).map (fun i => e.records.getD i [])
  jsSlice results offset (offset + limit)

/-! ## Tokenizer lemmas -/

/-- grouping into maximal non-separator runs is splitting at every
separator with the empty fields removed. -/
theorem wordsBy_eq_filter_splitChar (p : Char → Bool) (l : List Char) :
    wordsBy p l = (splitChar p l).filter (fun g => !g.isEmpty) := by
  induction l with
  | nil => rfl
  | cons c cs ih =>
    cases cs with
    | nil => cases hpc : p c <;> simp [wordsBy, splitChar, hpc]
    | cons d cs' =>
      cases hpc : p c with
      | true => simpa [wordsBy, splitChar, hpc] using ih
      | false =>
        cases hpd : p d with
        | true =>
          rw [wordsBy, splitChar]
          simp only [hpc, hpd, if_false, if_true, Bool.false_eq_true]
          rw [ih, splitChar]
          simp [hpd]
        | false =>
          rw [wordsBy, splitChar]
          simp only [hpc, hpd, if_false, Bool.false_eq_true]
          rw [ih, splitChar]
          simp only [hpd, Bool.false_eq_true, if_false]
          cases h' : splitChar p cs' with
          | nil => simp
          | cons g gs => simp

/-- the character produced by the replacement step is always lowercase
alphanumeric or whitespace. -/
theorem replaceNonAlnum_shape (c : Char) :
    (isLowerAlnum (replaceNonAlnum c) || isJsWs (replaceNonAlnum c)) = true := by
  unfold replaceNonAlnum
  cases h : (isLowerAlnum c || isJsWs c) with
  | true => simp [h]
  | false => simp only [h, Bool.false_eq_true, if_false]; decide

/-- every character of every field of `splitChar` comes from the input and
is not a separator. -/
theorem mem_of_mem_splitChar (p : Char → Bool) (l : List Char)
    (g : List Char) (hg : g ∈ splitChar p l) (c : Char) (hc : c ∈ g) :
    c ∈ l ∧ p c = false := by
  induction l generalizing g with
  | nil =>
    simp only [splitChar, List.mem_singleton] at hg
    subst hg; cases hc
  | cons a as ih =>
    rw [splitChar] at hg
    cases hpa : p a with
    | true =>
      simp only [hpa, if_true] at hg
      rcases List.mem_cons.mp hg with h | h
      · subst h; cases hc
      · obtain ⟨h1, h2⟩ := ih g h hc
        exact ⟨List.mem_cons_of_mem _ h1, h2⟩
    | false =>
      simp only [hpa, Bool.false_eq_true, if_false] at hg
      rcases h' : splitChar p as with _ | ⟨g', gs'⟩
      · rw [h'] at hg
        simp only [List.mem_singleton] at hg
        subst hg
        rcases List.mem_singleton.mp hc with rfl
        exact ⟨List.mem_cons_self _ _, hpa⟩
      · rw [h'] at hg
        rcases List.mem_cons.mp hg with h | h
        · subst h
          rcases List.mem_cons.mp hc with rfl | hcg
          · exact ⟨List.mem_cons_self _ _, hpa⟩
          · obtain ⟨h1, h2⟩ := ih g' (h' ▸ List.mem_cons_self _ _) hcg
            exact ⟨List.mem_cons_of_mem _ h1, h2⟩
        · obtain ⟨h1, h2⟩ := ih g (h' ▸ List.mem_cons_of_mem _ h) hc
          exact ⟨List.mem_cons_of_mem _ h1, h2⟩

/-- mapping `String.mk` commutes with dropping the empty fields. -/
theorem map_mk_filter_isEmpty (A : List (List Char)) :
    (A.filter (fun g => !g.isEmpty)).map (fun g => String.mk g) =
      (A.map (fun g => String.mk g)).filter (fun t => !t.data.isEmpty) := by
  induction A with
  | nil => rfl
  | cons g gs ih => cases g <;> simp [ih]

/-- the tokenizer agrees with the reference pipeline of the specification on
every string. -/
theorem tokenize_eq_tokenizeSpec (s : String) :
    tokenize (some s) = tokenizeSpec s := by
  simp only [tokenize, tokenizeSpec]
  by_cases hs : s = ""
  · subst hs; rfl
  · rw [if_neg hs, wordsBy_eq_filter_splitChar, map_mk_filter_isEmpty,
      List.filter_filter]
    apply List.filter_congr
    intro t _
    obtain ⟨data⟩ := t
    cases data with
    | nil => rfl
    | cons c cs =>
      simp only [List.isEmpty_cons, Bool.not_false, Bool.and_true,
        Bool.true_and]
      exact decide_eq_decide.mpr (by omega)

/-- shape of every emitted token: length at least two, characters all in
`[a-z0-9]`. -/
theorem tokenize_token_shape (s : String) (t : String)
    (ht : t ∈ tokenize (some s)) :
    2 ≤ t.length ∧ ∀ c ∈ t.data, isLowerAlnum c = true := by
  simp only [tokenize] at ht
  by_cases hs : s = ""
  · rw [if_pos hs] at ht; cases ht
  · rw [if_neg hs] at ht
    obtain ⟨ht, hlen⟩ := List.mem_filter.mp ht
    obtain ⟨g, hg, rfl⟩ := List.mem_map.mp ht
    refine ⟨by simpa using hlen, ?_⟩
    intro c hc
    obtain ⟨hmem, hws⟩ := mem_of_mem_splitChar _ _ g hg c hc
    obtain ⟨c₀, _, rfl⟩ := List.mem_map.mp hmem
    have := replaceNonAlnum_shape c₀
    rw [Bool.or_eq_true] at this
    rcases this with h | h
    · exact h
    · rw [h] at hws; cases hws

/-! ## Set and map lemmas -/

/-- membership in `Set.prototype.add`. -/
theorem mem_jsSetAdd (s : List Nat) (i x : Nat) :
    x ∈ jsSetAdd s i ↔ x ∈ s ∨ x = i := by
  unfold jsSetAdd
  by_cases h : i ∈ s
  · rw [if_pos h]
    constructor
    · exact Or.inl
    · rintro (hx | rfl) <;> [exact hx; exact h]
  · rw [if_neg h]; simp

/-- membership after folding the de-duplicating insert over a list. -/
theorem mem_dedup_foldl {α : Type} [DecidableEq α] (l acc : List α) (x : α) :
    x ∈ l.foldl (fun a u => if u ∈ a then a else a ++ [u]) acc ↔
      x ∈ acc ∨ x ∈ l := by
  induction l generalizing acc with
  | nil => simp
  | cons u us ih =>
    rw [List.foldl_cons, ih]
    by_cases h : u ∈ acc
    · rw [if_pos h]
      constructor
      · rintro (hx | hx)
        · exact Or.inl hx
        · exact Or.inr (List.mem_cons_of_mem _ hx)
      · rintro (hx | hx)
        · exact Or.inl hx
        · rcases List.mem_cons.mp hx with rfl | hx
          · exact Or.inl h
          · exact Or.inr hx
    · rw [if_neg h]; simp [or_assoc, List.mem_cons]

/-- membership in the de-duplication of a token list. -/
theorem mem_jsSetList (l : List String) (t : String) :
    t ∈ jsSetList l ↔ t ∈ l := by
  unfold jsSetList
  rw [mem_dedup_foldl]
  simp

/-- membership in the insertion-ordered union. -/
theorem mem_jsUnionInto (acc s : List Nat) (x : Nat) :
    x ∈ jsUnionInto acc s ↔ x ∈ acc ∨ x ∈ s := by
  unfold jsUnionInto
  exact mem_dedup_foldl s acc x

/-- lookup after a plain-object assignment. -/
theorem lookup_jsObjSet {α : Type} (m : List (String × α)) (k k' : String)
    (v : α) :
    List.lookup k' (jsObjSet m k v) =
      if k' = k then some v else List.lookup k' m := by
  induction m with
  | nil =>
    by_cases h : k' = k
    · simp [jsObjSet, List.lookup, h]
    · simp [jsObjSet, List.lookup, h, beq_false_of_ne h]
  | cons e rest ih =>
    obtain ⟨k₀, v₀⟩ := e
    rw [jsObjSet]
    by_cases h : k = k₀
    · subst h
      by_cases h' : k' = k
      · subst h'; simp [List.lookup]
      · simp [List.lookup, h', beq_false_of_ne h']
    · rw [if_neg h]
      by_cases h' : k' = k₀
      · subst h'
        simp [List.lookup, Ne.symm h]
      · simp [List.lookup, beq_false_of_ne h', ih]

/-- the posting set under a key after `_addToIndex`. -/
theorem postingOf_mapAdd (m : PostingMap) (k k' : String) (i : Nat) :
    postingOf (mapAdd m k i) k' =
      if k' = k then jsSetAdd (postingOf m k) i else postingOf m k' := by
  unfold mapAdd postingOf
  rw [lookup_jsObjSet]
  by_cases h : k' = k
  · rw [if_pos h, if_pos h]; rfl
  · rw [if_neg h, if_neg h]

/-- membership in a posting set after `_addToIndex`. -/
theorem mem_postingOf_mapAdd (m : PostingMap) (k k' : String) (i x : Nat) :
    x ∈ postingOf (mapAdd m k i) k' ↔
      x ∈ postingOf m k' ∨ (k' = k ∧ x = i) := by
  rw [postingOf_mapAdd]
  by_cases h : k' = k
  · subst h
    rw [if_pos rfl, mem_jsSetAdd]
    constructor
    · rintro (hx | rfl) <;> [exact Or.inl hx; exact Or.inr ⟨rfl, rfl⟩]
    · rintro (hx | ⟨-, rfl⟩) <;> [exact Or.inl hx; exact Or.inr rfl]
  · rw [if_neg h]
    constructor
    · exact Or.inl
    · rintro (hx | ⟨rfl, rfl⟩) <;> [exact hx; exact absurd rfl h]

/-! ## Inverted-index characterization -/

/-- membership after registering one record under all its tokens. -/
theorem mem_postingOf_foldTokens (ts : List String) (m : PostingMap)
    (i : Nat) (k : String) (x : Nat) :
    x ∈ postingOf (ts.foldl (fun m' t => mapAdd m' t i) m) k ↔
      x ∈ postingOf m k ∨ (k ∈ ts ∧ x = i) := by
  induction ts generalizing m with
  | nil => simp
  | cons t ts ih =>
    rw [List.foldl_cons, ih, mem_postingOf_mapAdd]
    constructor
    · rintro ((hx | ⟨rfl, rfl⟩) | ⟨hk, rfl⟩)
      · exact Or.inl hx
      · exact Or.inr ⟨List.mem_cons_self _ _, rfl⟩
      · exact Or.inr ⟨List.mem_cons_of_mem _ hk, rfl⟩
    · rintro (hx | ⟨hk, rfl⟩)
      · exact Or.inl (Or.inl hx)
      · rcases List.mem_cons.mp hk with rfl | hk
        · exact Or.inl (Or.inr ⟨rfl, rfl⟩)
        · exact Or.inr ⟨hk, rfl⟩

/-- membership after the full-text part of one `forEach` step. -/
theorem mem_postingOf_addInvEntries (m : PostingMap) (i : Nat) (r : Record)
    (k : String) (x : Nat) :
    x ∈ postingOf (addInvEntries m i r) k ↔
      x ∈ postingOf m k ∨ (k ∈ recordTokens r ∧ x = i) := by
  unfold addInvEntries
  exact mem_postingOf_foldTokens _ m i k x

/-- the first component of the build fold is the inverted-index fold. -/
theorem foldl_buildStep_fst (ps : List (Nat × Record))
    (a : PostingMap) (b : FieldIdx) :
    (ps.foldl buildStep (a, b)).1 =
      ps.foldl (fun m p => addInvEntries m p.1 p.2) a := by
  induction ps generalizing a b with
  | nil => rfl
  | cons p ps ih => rw [List.foldl_cons, List.foldl_cons]; exact ih _ _

/-- the second component of the build fold is the field-index fold. -/
theorem foldl_buildStep_snd (ps : List (Nat × Record))
    (a : PostingMap) (b : FieldIdx) :
    (ps.foldl buildStep (a, b)).2 =
      ps.foldl (fun fi p => addFieldEntries fi p.1 p.2) b := by
  induction ps generalizing a b with
  | nil => rfl
  | cons p ps ih => rw [List.foldl_cons, List.foldl_cons]; exact ih _ _

/-- membership in the inverted index folded over a list of (ordinal,
record) pairs. -/
theorem mem_postingOf_foldInv (ps : List (Nat × Record)) (m : PostingMap)
    (k : String) (x : Nat) :
    x ∈ postingOf (ps.foldl (fun m' p => addInvEntries m' p.1 p.2) m) k ↔
      x ∈ postingOf m k ∨ ∃ p ∈ ps, k ∈ recordTokens p.2 ∧ x = p.1 := by
  induction ps generalizing m with
  | nil => simp
  | cons p ps ih =>
    rw [List.foldl_cons, ih, mem_postingOf_addInvEntries]
    constructor
    · rintro ((hx | ⟨hk, rfl⟩) | ⟨p', hp', hk', hx'⟩)
      · exact Or.inl hx
      · exact Or.inr ⟨p, List.mem_cons_self _ _, hk, rfl⟩
      · exact Or.inr ⟨p', List.mem_cons_of_mem _ hp', hk', hx'⟩
    · rintro (hx | ⟨p', hp', hk', hx'⟩)
      · exact Or.inl (Or.inl hx)
      · rcases List.mem_cons.mp hp' with rfl | hp'
        · exact Or.inl (Or.inr ⟨hk', hx'⟩)
        · exact Or.inr ⟨p', hp', hk', hx'⟩

/-- membership in the built inverted index: exactly the ordinals of the
records whose de-duplicated token set contains the term. -/
theorem mem_postingOf_build (records : List Record) (k : String) (x : Nat) :
    x ∈ postingOf (PlantQueryEngine.build records).invertedIndex k ↔
      x < records.length ∧ k ∈ recordTokens (records.getD x []) := by
  show x ∈ postingOf (buildIndexes records).1 k ↔ _
  unfold buildIndexes
  rw [foldl_buildStep_fst, mem_postingOf_foldInv]
  constructor
  · rintro (hx | ⟨p, hp, hk, rfl⟩)
    · simp [postingOf, List.lookup] at hx
    · rw [List.mem_enum_iff_getElem?] at hp
      obtain ⟨hlt, hget⟩ := List.getElem?_eq_some.mp hp
      refine ⟨hlt, ?_⟩
      rwa [List.getD_eq_getElem?_getD, hp]
  · rintro ⟨hlt, hk⟩
    refine Or.inr ⟨(x, records.getD x []), ?_, hk, rfl⟩
    rw [List.mem_enum_iff_getElem?]
    show records[x]? = some (records.getD x [])
    rw [List.getD_eq_getElem?_getD, List.getElem?_eq_getElem hlt]
    rfl

/-! ## Field-index characterization -/

/-- the posting sets after one field-index insertion. -/
theorem fieldPosting_fieldMapAdd (fi : FieldIdx) (f f' k k' : String)
    (i : Nat) :
    fieldPosting (fieldMapAdd fi f k i) f' k' =
      if f' = f then postingOf (mapAdd ((List.lookup f fi).getD []) k i) k'
      else fieldPosting fi f' k' := by
  unfold fieldMapAdd fieldPosting
  rw [lookup_jsObjSet]
  by_cases h : f' = f
  · rw [if_pos h, if_pos h]; rfl
  · rw [if_neg h, if_neg h]

/-- membership in a field posting set after one insertion. -/
theorem mem_fieldPosting_fieldMapAdd (fi : FieldIdx) (f f' k k' : String)
    (i x : Nat) :
    x ∈ fieldPosting (fieldMapAdd fi f k i) f' k' ↔
      x ∈ fieldPosting fi f' k' ∨ (f' = f ∧ k' = k ∧ x = i) := by
  rw [fieldPosting_fieldMapAdd]
  by_cases h : f' = f
  · subst h
    rw [if_pos rfl, mem_postingOf_mapAdd]
    show x ∈ fieldPosting fi f' k' ∨ _ ↔ _
    constructor
    · rintro (hx | ⟨rfl, rfl⟩)
      · exact Or.inl hx
      · exact Or.inr ⟨rfl, rfl, rfl⟩
    · rintro (hx | ⟨-, rfl, rfl⟩)
      · exact Or.inl hx
      · exact Or.inr ⟨rfl, rfl⟩
  · rw [if_neg h]
    constructor
    · exact Or.inl
    · rintro (hx | ⟨rfl, -, -⟩)
      · exact hx
      · exact absurd rfl h

/-- membership after registering one record for a list of fields. -/
theorem mem_fieldPosting_foldFields (fs : List String) (fi : FieldIdx)
    (i : Nat) (r : Record) (f k : String) (x : Nat) :
    x ∈ fieldPosting
        (fs.foldl
          (fun fi' field =>
            match List.lookup field r with
            | some s =>
              if s = "" then fi' else fieldMapAdd fi' field (strLower s) i
            | none => fi')
          fi) f k ↔
      x ∈ fieldPosting fi f k ∨
        (f ∈ fs ∧ ∃ s, List.lookup f r = some s ∧ s ≠ "" ∧
          strLower s = k ∧ x = i) := by
  induction fs generalizing fi with
  | nil => simp
  | cons f₀ fs ih =>
    rw [List.foldl_cons]
    cases hl : List.lookup f₀ r with
    | none =>
      rw [ih]
      constructor
      · rintro (hx | ⟨hf, hs⟩)
        · exact Or.inl hx
        · exact Or.inr ⟨List.mem_cons_of_mem _ hf, hs⟩
      · rintro (hx | ⟨hf, s, hs, hrest⟩)
        · exact Or.inl hx
        · rcases List.mem_cons.mp hf with rfl | hf
          · rw [hl] at hs; cases hs
          · exact Or.inr ⟨hf, s, hs, hrest⟩
    | some s₀ =>
      dsimp only
      by_cases hs₀ : s₀ = ""
      · rw [if_pos hs₀, ih]
        constructor
        · rintro (hx | ⟨hf, hs⟩)
          · exact Or.inl hx
          · exact Or.inr ⟨List.mem_cons_of_mem _ hf, hs⟩
        · rintro (hx | ⟨hf, s, hs, hne, hrest⟩)
          · exact Or.inl hx
          · rcases List.mem_cons.mp hf with rfl | hf
            · rw [hl] at hs
              cases hs
              exact absurd hs₀ hne
            · exact Or.inr ⟨hf, s, hs, hne, hrest⟩
      · rw [if_neg hs₀, ih, mem_fieldPosting_fieldMapAdd]
        constructor
        · rintro ((hx | ⟨rfl, rfl, rfl⟩) | ⟨hf, hs⟩)
          · exact Or.inl hx
          · exact Or.inr ⟨List.mem_cons_self _ _, s₀, hl, hs₀, rfl, rfl⟩
          · exact Or.inr ⟨List.mem_cons_of_mem _ hf, hs⟩
        · rintro (hx | ⟨hf, s, hs, hne, hk, hx⟩)
          · exact Or.inl (Or.inl hx)
          · rcases List.mem_cons.mp hf with rfl | hf
            · rw [hl] at hs
              cases hs
              exact Or.inl (Or.inr ⟨rfl, hk.symm, hx⟩)
            · exact Or.inr ⟨hf, s, hs, hne, hk, hx⟩

/-- membership after the field-index part of one `forEach` step. -/
theorem mem_fieldPosting_addFieldEntries (fi : FieldIdx) (i : Nat)
    (r : Record) (f k : String) (x : Nat) :
    x ∈ fieldPosting (addFieldEntries fi i r) f k ↔
      x ∈ fieldPosting fi f k ∨
        (f ∈ whitelist ∧ ∃ s, List.lookup f r = some s ∧ s ≠ "" ∧
          strLower s = k ∧ x = i) := by
  unfold addFieldEntries
  exact mem_fieldPosting_foldFields whitelist fi i r f k x

/-- membership in the field index folded over (ordinal, record) pairs. -/
theorem mem_fieldPosting_foldRecords (ps : List (Nat × Record))
    (fi : FieldIdx) (f k : String) (x : Nat) :
    x ∈ fieldPosting (ps.foldl (fun fi' p => addFieldEntries fi' p.1 p.2) fi)
        f k ↔
      x ∈ fieldPosting fi f k ∨
        ∃ p ∈ ps, f ∈ whitelist ∧ ∃ s, List.lookup f p.2 = some s ∧
          s ≠ "" ∧ strLower s = k ∧ x = p.1 := by
  induction ps generalizing fi with
  | nil => simp
  | cons p ps ih =>
    rw [List.foldl_cons, ih, mem_fieldPosting_addFieldEntries]
    constructor
    · rintro ((hx | ⟨hw, hs⟩) | ⟨p', hp', hrest⟩)
      · exact Or.inl hx
      · exact Or.inr ⟨p, List.mem_cons_self _ _, hw, hs⟩
      · exact Or.inr ⟨p', List.mem_cons_of_mem _ hp', hrest⟩
    · rintro (hx | ⟨p', hp', hrest⟩)
      · exact Or.inl (Or.inl hx)
      · rcases List.mem_cons.mp hp' with rfl | hp'
        · exact Or.inl (Or.inr hrest)
        · exact Or.inr ⟨p', hp', hrest⟩

/-- membership in the built field index: exactly the ordinals of records
carrying the whitelisted field with a truthy value whose lowercasing is
the key. -/
theorem mem_fieldPosting_build (records : List Record) (f k : String)
    (x : Nat) :
    x ∈ fieldPosting (PlantQueryEngine.build records).fieldIndex f k ↔
      x < records.length ∧ f ∈ whitelist ∧
        ∃ s, List.lookup f (records.getD x []) = some s ∧ s ≠ "" ∧
          strLower s = k := by
  show x ∈ fieldPosting (buildIndexes records).2 f k ↔ _
  unfold buildIndexes
  rw [foldl_buildStep_snd, mem_fieldPosting_foldRecords]
  constructor
  · rintro (hx | ⟨p, hp, hw, s, hs, hne, hk, rfl⟩)
    · simp [fieldPosting, postingOf, List.lookup] at hx
    · rw [List.mem_enum_iff_getElem?] at hp
      obtain ⟨hlt, -⟩ := List.getElem?_eq_some.mp hp
      refine ⟨hlt, hw, s, ?_, hne, hk⟩
      rwa [List.getD_eq_getElem?_getD, hp]
  · rintro ⟨hlt, hw, s, hs, hne, hk⟩
    refine Or.inr ⟨(x, records.getD x []), ?_, hw, s, hs, hne, hk, rfl⟩
    rw [List.mem_enum_iff_getElem?]
    show records[x]? = some (records.getD x [])
    rw [List.getD_eq_getElem?_getD, List.getElem?_eq_getElem hlt]
    rfl

/-! ## Presence of a field in the built field index -/

/-- presence after one field-index insertion. -/
theorem isSome_lookup_fieldMapAdd (fi : FieldIdx) (f f' k : String)
    (i : Nat) :
    (List.lookup f' (fieldMapAdd fi f k i)).isSome = true ↔
      f' = f ∨ (List.lookup f' fi).isSome = true := by
  unfold fieldMapAdd
  rw [lookup_jsObjSet]
  by_cases h : f' = f
  · simp [h]
  · simp [h]

/-- presence after registering one record for a list of fields. -/
theorem isSome_lookup_foldFields (fs : List String) (fi : FieldIdx)
    (i : Nat) (r : Record) (f : String) :
    (List.lookup f
        (fs.foldl
          (fun fi' field =>
            match List.lookup field r with
            | some s =>
              if s = "" then fi' else fieldMapAdd fi' field (strLower s) i
            | none => fi')
          fi)).isSome = true ↔
      (List.lookup f fi).isSome = true ∨
        (f ∈ fs ∧ ∃ s, List.lookup f r = some s ∧ s ≠ "") := by
  induction fs generalizing fi with
  | nil => simp
  | cons f₀ fs ih =>
    rw [List.foldl_cons]
    cases hl : List.lookup f₀ r with
    | none =>
      rw [ih]
      constructor
      · rintro (hx | ⟨hf, hs⟩)
        · exact Or.inl hx
        · exact Or.inr ⟨List.mem_cons_of_mem _ hf, hs⟩
      · rintro (hx | ⟨hf, s, hs, hne⟩)
        · exact Or.inl hx
        · rcases List.mem_cons.mp hf with rfl | hf
          · rw [hl] at hs; cases hs
          · exact Or.inr ⟨hf, s, hs, hne⟩
    | some s₀ =>
      dsimp only
      by_cases hs₀ : s₀ = ""
      · rw [if_pos hs₀, ih]
        constructor
        · rintro (hx | ⟨hf, hs⟩)
          · exact Or.inl hx
          · exact Or.inr ⟨List.mem_cons_of_mem _ hf, hs⟩
        · rintro (hx | ⟨hf, s, hs, hne⟩)
          · exact Or.inl hx
          · rcases List.mem_cons.mp hf with rfl | hf
            · rw [hl] at hs
              cases hs
              exact absurd hs₀ hne
            · exact Or.inr ⟨hf, s, hs, hne⟩
      · rw [if_neg hs₀, ih, isSome_lookup_fieldMapAdd]
        constructor
        · rintro ((rfl | hx) | ⟨hf, hs⟩)
          · exact Or.inr ⟨List.mem_cons_self _ _, s₀, hl, hs₀⟩
          · exact Or.inl hx
          · exact Or.inr ⟨List.mem_cons_of_mem _ hf, hs⟩
        · rintro (hx | ⟨hf, s, hs, hne⟩)
          · exact Or.inl (Or.inr hx)
          · rcases List.mem_cons.mp hf with rfl | hf
            · exact Or.inl (Or.inl rfl)
            · exact Or.inr ⟨hf, s, hs, hne⟩

/-- presence after the field-index part of one `forEach` step. -/
theorem isSome_lookup_addFieldEntries (fi : FieldIdx) (i : Nat) (r : Record)
    (f : String) :
    (List.lookup f (addFieldEntries fi i r)).isSome = true ↔
      (List.lookup f fi).isSome = true ∨
        (f ∈ whitelist ∧ ∃ s, List.lookup f r = some s ∧ s ≠ "") := by
  unfold addFieldEntries
  exact isSome_lookup_foldFields whitelist fi i r f

/-- presence in the field index folded over (ordinal, record) pairs. -/
theorem isSome_lookup_foldRecords (ps : List (Nat × Record)) (fi : FieldIdx)
    (f : String) :
    (List.lookup f
        (ps.foldl (fun fi' p => addFieldEntries fi' p.1 p.2) fi)).isSome =
        true ↔
      (List.lookup f fi).isSome = true ∨
        ∃ p ∈ ps, f ∈ whitelist ∧ ∃ s, List.lookup f p.2 = some s ∧
          s ≠ "" := by
  induction ps generalizing fi with
  | nil => simp
  | cons p ps ih =>
    rw [List.foldl_cons, ih, isSome_lookup_addFieldEntries]
    constructor
    · rintro ((hx | ⟨hw, hs⟩) | ⟨p', hp', hrest⟩)
      · exact Or.inl hx
      · exact Or.inr ⟨p, List.mem_cons_self _ _, hw, hs⟩
      · exact Or.inr ⟨p', List.mem_cons_of_mem _ hp', hrest⟩
    · rintro (hx | ⟨p', hp', hrest⟩)
      · exact Or.inl (Or.inl hx)
      · rcases List.mem_cons.mp hp' with rfl | hp'
        · exact Or.inl (Or.inr hrest)
        · exact Or.inr ⟨p', hp', hrest⟩

/-- a field has an entry in the built field index exactly when it is
whitelisted and some record carries it with a truthy (non-empty) value. -/
theorem isSome_lookup_fieldIndex_build (records : List Record) (f : String) :
    (List.lookup f (PlantQueryEngine.build records).fieldIndex).isSome =
        true ↔
      f ∈ whitelist ∧ ∃ r ∈ records, ∃ s, List.lookup f r = some s ∧
        s ≠ "" := by
  show (List.lookup f (buildIndexes records).2).isSome = true ↔ _
  unfold buildIndexes
  rw [foldl_buildStep_snd, isSome_lookup_foldRecords]
  constructor
  · rintro (hx | ⟨p, hp, hw, s, hs, hne⟩)
    · cases hx
    · rw [List.mem_enum_iff_getElem?] at hp
      obtain ⟨hlt, hget⟩ := List.getElem?_eq_some.mp hp
      exact ⟨hw, p.2, hget ▸ List.getElem_mem hlt, s, hs, hne⟩
  · rintro ⟨hw, r, hr, s, hs, hne⟩
    obtain ⟨j, hj, hget⟩ := List.mem_iff_getElem.mp hr
    refine Or.inr ⟨(j, r), ?_, hw, s, hs, hne⟩
    rw [List.mem_enum_iff_getElem?]
    show records[j]? = some r
    rw [List.getElem?_eq_getElem hj, hget]

/-! ## Query-stage lemmas -/

/-- membership in the OR-union of a list of posting sets. -/
theorem mem_foldl_jsUnionInto (ps : List (List Nat)) (acc : List Nat)
    (x : Nat) :
    x ∈ ps.foldl jsUnionInto acc ↔ x ∈ acc ∨ ∃ s ∈ ps, x ∈ s := by
  induction ps generalizing acc with
  | nil => simp
  | cons s ps ih =>
    rw [List.foldl_cons, ih, mem_jsUnionInto]
    constructor
    · rintro ((hx | hx) | ⟨s', hs', hx⟩)
      · exact Or.inl hx
      · exact Or.inr ⟨s, List.mem_cons_self _ _, hx⟩
      · exact Or.inr ⟨s', List.mem_cons_of_mem _ hs', hx⟩
    · rintro (hx | ⟨s', hs', hx⟩)
      · exact Or.inl (Or.inl hx)
      · rcases List.mem_cons.mp hs' with rfl | hs'
        · exact Or.inl (Or.inr hx)
        · exact Or.inr ⟨s', hs', hx⟩

/-- membership after the full-text stage, for a phrase producing at least
one term: exactly the candidates appearing in the posting
set of some query term. -/
theorem mem_fulltextStage (e : PlantQueryEngine) (qs : String)
    (hq : tokenize (some qs) ≠ []) (cands : List Nat) (x : Nat) :
    x ∈ fulltextStage e (some qs) cands ↔
      x ∈ cands ∧ ∃ t ∈ tokenize (some qs),
        x ∈ postingOf e.invertedIndex t := by
  have hqs : qs ≠ "" := by
    intro h
    subst h
    exact hq rfl
  unfold fulltextStage
  dsimp only
  rw [if_neg hqs, if_pos (by
    cases h : tokenize (some qs) with
    | nil => exact absurd h hq
    | cons a l => simp [h])]
  rw [List.mem_filter]
  simp only [decide_eq_true_eq]
  rw [mem_foldl_jsUnionInto]
  simp only [List.mem_map]
  constructor
  · rintro ⟨hx, h0 | ⟨s, ⟨t₀, ht₀, rfl⟩, hp⟩⟩
    · cases h0
    · exact ⟨hx, t₀, ht₀, hp⟩
  · rintro ⟨hx, t₀, ht₀, hp⟩
    exact ⟨hx, Or.inr ⟨postingOf e.invertedIndex t₀, ⟨t₀, ht₀, rfl⟩, hp⟩⟩

/-- the full-text stage never adds candidates. -/
theorem fulltextStage_sublist (e : PlantQueryEngine) (q : Option String)
    (cands : List Nat) :
    List.Sublist (fulltextStage e q cands) cands := by
  unfold fulltextStage
  cases q with
  | none => exact List.Sublist.refl _
  | some s =>
    dsimp only
    by_cases hs : s = ""
    · rw [if_pos hs]
    · rw [if_neg hs]
      by_cases ht : (tokenize (some s)).length > 0
      · rw [if_pos ht]; exact List.filter_sublist _
      · rw [if_neg ht]

/-- a skipped full-text stage (phrase absent, empty, or tokenizing to
nothing) leaves the candidate list unchanged. -/
theorem fulltextStage_of_tokenize_nil (e : PlantQueryEngine)
    (q : Option String) (hq : tokenize q = []) (cands : List Nat) :
    fulltextStage e q cands = cands := by
  unfold fulltextStage
  cases q with
  | none => rfl
  | some s =>
    dsimp only
    by_cases hs : s = ""
    · rw [if_pos hs]
    · rw [if_neg hs, hq]
      rfl

/-- the per-candidate test of one filter pair, read off from the two
branches of the filter loop. -/
def filterPass (e : PlantQueryEngine) (fv : String × Value) (x : Nat) :
    Bool :=
  match List.lookup fv.1 e.fieldIndex with
  | some fmap => decide (x ∈ postingOf fmap (valueKey (normValue fv.2)))
  | none => jsStrictEq (List.lookup fv.1 (e.records.getD x [])) fv.2

/-- one filter step is a filter by its per-candidate test. -/
theorem applyFilter_eq_filter (e : PlantQueryEngine) (cands : List Nat)
    (fv : String × Value) :
    applyFilter e cands fv = cands.filter (filterPass e fv) := by
  unfold applyFilter filterPass
  cases List.lookup fv.1 e.fieldIndex <;> rfl

/-- one filter step never adds candidates. -/
theorem applyFilter_sublist (e : PlantQueryEngine) (cands : List Nat)
    (fv : String × Value) :
    List.Sublist (applyFilter e cands fv) cands := by
  rw [applyFilter_eq_filter]
  exact List.filter_sublist _

/-- membership after the filter stage: a candidate survives exactly when
it was a candidate before and passes every filter pair (AND semantics). -/
theorem mem_filterStage (e : PlantQueryEngine)
    (filters : List (String × Value)) (cands : List Nat) (x : Nat) :
    x ∈ filterStage e filters cands ↔
      x ∈ cands ∧ ∀ fv ∈ filters, filterPass e fv x = true := by
  induction filters generalizing cands with
  | nil => simp [filterStage]
  | cons fv fvs ih =>
    show x ∈ filterStage e fvs (applyFilter e cands fv) ↔ _
    rw [ih, applyFilter_eq_filter, List.mem_filter]
    constructor
    · rintro ⟨⟨hx, hp⟩, hall⟩
      refine ⟨hx, ?_⟩
      intro fv' hfv'
      rcases List.mem_cons.mp hfv' with rfl | hfv'
      · exact hp
      · exact hall fv' hfv'
    · rintro ⟨hx, hall⟩
      exact ⟨⟨hx, hall fv (List.mem_cons_self _ _)⟩,
        fun fv' hfv' => hall fv' (List.mem_cons_of_mem _ hfv')⟩

/-- the filter stage never adds candidates. -/
theorem filterStage_sublist (e : PlantQueryEngine)
    (filters : List (String × Value)) (cands : List Nat) :
    List.Sublist (filterStage e filters cands) cands := by
  induction filters generalizing cands with
  | nil => exact List.Sublist.refl _
  | cons fv fvs ih =>
    exact (ih (applyFilter e cands fv)).trans (applyFilter_sublist e cands fv)

/-- appending one more filter applies it after the others. -/
theorem filterStage_append (e : PlantQueryEngine)
    (F G : List (String × Value)) (cands : List Nat) :
    filterStage e (F ++ G) cands = filterStage e G (filterStage e F cands) :=
  List.foldl_append _ _ _ _

/-- the final candidates form a sublist of `range`, hence are sorted in
strictly ascending ordinal order. -/
theorem finalCandidates_sublist_range (e : PlantQueryEngine)
    (q : Option String) (filters : List (String × Value)) :
    List.Sublist (finalCandidates e q filters)
      (List.range e.records.length) :=
  (filterStage_sublist e filters _).trans (fulltextStage_sublist e q _)

/-- the final candidate enumeration is strictly ascending in the record
ordinal. -/
theorem finalCandidates_pairwise (e : PlantQueryEngine) (q : Option String)
    (filters : List (String × Value)) :
    List.Pairwise (· < ·) (finalCandidates e q filters) :=
  (List.pairwise_lt_range _).sublist (finalCandidates_sublist_range e q filters)

/-- slicing by `Array.prototype.slice` with non-negative bounds `start` and
`start + k` is drop-then-take. -/
theorem jsSlice_nonneg {α : Type} (l : List α) (start k : Int)
    (hs : 0 ≤ start) (hk : 0 ≤ k) :
    jsSlice l start (start + k) = (l.drop start.toNat).take k.toNat := by
  unfold jsSlice jsSliceBound
  rw [if_neg (by omega), if_neg (by omega)]
  rcases le_or_lt l.length start.toNat with h | h
  · rw [min_eq_right h]
    rw [List.drop_eq_nil_of_le (le_refl _), List.drop_eq_nil_of_le h]
    simp
  · rw [min_eq_left (le_of_lt h)]
    have htn : (start + k).toNat = start.toNat + k.toNat := by omega
    rw [htn]
    have hlen : (l.drop start.toNat).length = l.length - start.toNat :=
      List.length_drop _ _
    rw [List.take_eq_take.mpr]
    rw [hlen]
    omega

/-- the query result with explicit non-negative pagination arguments is
the candidate records dropped by `offset` and truncated to `limit`. -/
theorem query_eq_drop_take (e : PlantQueryEngine) (q : Option String)
    (filters : List (String × Value)) (limit offset : Int)
    (hl : 0 ≤ limit) (ho : 0 ≤ offset) :
    e.query q filters (some limit) (some offset) =
      (((finalCandidates e q filters).map
        (fun i => e.records.getD i [])).drop offset.toNat).take
        limit.toNat := by
  show jsSlice _ offset (offset + limit) = _
  exact jsSlice_nonneg _ offset limit ho hl

/-! ## Concrete sample data used by witnesses and counterexamples -/

/-- the literal scenario 1 records of the specification. -/
def sampleAbies : List Record :=
  [[("scientific_name", "Abelia")],
   [("scientific_name", "Abies"), ("common_name", "fir")]]

/-- the literal scenario 3 records of the specification. -/
def sampleRosaceae : List Record :=
  [[("plant_id", "1"), ("family", "Rosaceae")],
   [("plant_id", "2"), ("family", "Rosaceae")]]

/-- three distinguishable records for the pagination experiments. -/
def sampleThree : List Record :=
  [[("plant_id", "1")], [("plant_id", "2")], [("plant_id", "3")]]

/-- a collection whose only record carries the whitelisted field `family`
with an empty (falsy) value, so no field-index entry is built for it. -/
def sampleEmptyFamily : List Record := [[("family", "")]]

/-! ## Claim theorems -/

/-- C1: for every engine built from a record collection and every phrase
tokenizing to at least one term, the candidate set after the full-text
stage (started from the all-records candidate set) contains exactly the
records whose de-duplicated five-field token set contains at least one of
the phrase terms — inclusive OR across terms, exact whole-token match —
and a term absent from the inverted index contributes the empty posting
set. -/
theorem claim_C1 (records : List Record) (qs : String)
    (hq : tokenize (some qs) ≠ []) :
    (∀ x, x ∈ fulltextStage (PlantQueryEngine.build records) (some qs)
        (List.range records.length) ↔
      x < records.length ∧ ∃ t ∈ tokenize (some qs),
        t ∈ recordTokens (records.getD x [])) ∧
    ∀ t, List.lookup t (PlantQueryEngine.build records).invertedIndex =
        none →
      postingOf (PlantQueryEngine.build records).invertedIndex t = [] := by
  constructor
  · intro x
    rw [mem_fulltextStage _ _ hq, List.mem_range]
    constructor
    · rintro ⟨hx, t, ht, hp⟩
      rw [mem_postingOf_build] at hp
      exact ⟨hx, t, ht, hp.2⟩
    · rintro ⟨hx, t, ht, htok⟩
      exact ⟨hx, t, ht, (mem_postingOf_build records t x).mpr ⟨hx, htok⟩⟩
  · intro t hnone
    unfold postingOf
    rw [hnone]
    rfl

/-- witness for C1 at scenario 1 of the specification: the phrase `fir`
selects exactly the second record. -/
theorem claim_C1_witness :
    tokenize (some "fir") ≠ [] ∧
    ((∀ x, x ∈ fulltextStage (PlantQueryEngine.build sampleAbies)
        (some "fir") (List.range sampleAbies.length) ↔
      x < sampleAbies.length ∧ ∃ t ∈ tokenize (some "fir"),
        t ∈ recordTokens (sampleAbies.getD x [])) ∧
    ∀ t, List.lookup t (PlantQueryEngine.build sampleAbies).invertedIndex =
        none →
      postingOf (PlantQueryEngine.build sampleAbies).invertedIndex t = []) :=
  ⟨by decide, claim_C1 sampleAbies "fir" (by decide)⟩

/-- C2: filter pairs are applied in the caller-supplied order and compose
by intersection (AND); a field present in the built field index is looked
up under the normalization shared with construction (strings lowercased,
non-strings unchanged; missing key, empty posting set), a field outside
the whitelist is never in the index and is handled by a raw
strict-equality scan with no normalization. -/
theorem claim_C2 (records : List Record) (filters : List (String × Value))
    (cands : List Nat) :
    (filterStage (PlantQueryEngine.build records) filters cands =
      filters.foldl (applyFilter (PlantQueryEngine.build records)) cands) ∧
    (∀ x, x ∈ filterStage (PlantQueryEngine.build records) filters cands ↔
      x ∈ cands ∧ ∀ fv ∈ filters,
        filterPass (PlantQueryEngine.build records) fv x = true) ∧
    (∀ field value fmap,
      List.lookup field (PlantQueryEngine.build records).fieldIndex =
          some fmap →
      applyFilter (PlantQueryEngine.build records) cands (field, value) =
        cands.filter (fun x =>
          decide (x ∈ postingOf fmap (valueKey (normValue value))))) ∧
    (∀ field, field ∉ whitelist →
      List.lookup field (PlantQueryEngine.build records).fieldIndex =
        none) ∧
    (∀ field value,
      List.lookup field (PlantQueryEngine.build records).fieldIndex =
          none →
      applyFilter (PlantQueryEngine.build records) cands (field, value) =
        cands.filter (fun idx =>
          jsStrictEq (List.lookup field (records.getD idx [])) value)) ∧
    (∀ s, normValue (Value.vstr s) = Value.vstr (strLower s)) ∧
    (∀ n, normValue (Value.vnum n) = Value.vnum n) := by
  refine ⟨rfl, fun x => mem_filterStage _ filters cands x, ?_, ?_, ?_,
    fun s => rfl, fun n => rfl⟩
  · intro field value fmap h
    unfold applyFilter
    dsimp only
    rw [h]
  · intro field hnw
    cases hl : List.lookup field
        (PlantQueryEngine.build records).fieldIndex with
    | none => rfl
    | some fmap =>
      have h := (isSome_lookup_fieldIndex_build records field).mp
        (by rw [hl]; rfl)
      exact absurd h.1 hnw
  · intro field value h
    unfold applyFilter
    dsimp only
    rw [h]
    rfl

/-- witness for C2 at the scenario 3 data with one whitelisted and the
membership characterization over both candidates. -/
theorem claim_C2_witness :
    (filterStage (PlantQueryEngine.build sampleRosaceae)
        [("family", Value.vstr "ROSACEAE")] [0, 1] =
      [("family", Value.vstr "ROSACEAE")].foldl
        (applyFilter (PlantQueryEngine.build sampleRosaceae)) [0, 1]) ∧
    (∀ x, x ∈ filterStage (PlantQueryEngine.build sampleRosaceae)
        [("family", Value.vstr "ROSACEAE")] [0, 1] ↔
      x ∈ [0, 1] ∧ ∀ fv ∈ [("family", Value.vstr "ROSACEAE")],
        filterPass (PlantQueryEngine.build sampleRosaceae) fv x = true) ∧
    (∀ field value fmap,
      List.lookup field (PlantQueryEngine.build sampleRosaceae).fieldIndex =
          some fmap →
      applyFilter (PlantQueryEngine.build sampleRosaceae) [0, 1]
          (field, value) =
        [0, 1].filter (fun x =>
          decide (x ∈ postingOf fmap (valueKey (normValue value))))) ∧
    (∀ field, field ∉ whitelist →
      List.lookup field (PlantQueryEngine.build sampleRosaceae).fieldIndex =
        none) ∧
    (∀ field value,
      List.lookup field (PlantQueryEngine.build sampleRosaceae).fieldIndex =
          none →
      applyFilter (PlantQueryEngine.build sampleRosaceae) [0, 1]
          (field, value) =
        [0, 1].filter (fun idx =>
          jsStrictEq (List.lookup field (sampleRosaceae.getD idx []))
            value)) ∧
    (∀ s, normValue (Value.vstr s) = Value.vstr (strLower s)) ∧
    (∀ n, normValue (Value.vnum n) = Value.vnum n) :=
  claim_C2 sampleRosaceae [("family", Value.vstr "ROSACEAE")] [0, 1]

/-- C3: with non-negative offset and limit, the result is exactly the
final candidate set in strictly ascending ordinal order, restricted to
positions `[offset, offset+limit)` clipped to the available length; its
length is at most `limit`, an offset beyond the candidate count yields an
empty result, and a zero limit yields an empty result. -/
theorem claim_C3 (records : List Record) (q : Option String)
    (filters : List (String × Value)) (limit offset : Int)
    (hl : 0 ≤ limit) (ho : 0 ≤ offset) :
    List.Pairwise (· < ·)
      (finalCandidates (PlantQueryEngine.build records) q filters) ∧
    (PlantQueryEngine.build records).query q filters (some limit)
        (some offset) =
      (((finalCandidates (PlantQueryEngine.build records) q filters).map
        (fun i => records.getD i [])).drop offset.toNat).take limit.toNat ∧
    ((PlantQueryEngine.build records).query q filters (some limit)
        (some offset)).length ≤ limit.toNat ∧
    ((finalCandidates (PlantQueryEngine.build records) q filters).length ≤
        offset.toNat →
      (PlantQueryEngine.build records).query q filters (some limit)
        (some offset) = []) ∧
    (limit = 0 →
      (PlantQueryEngine.build records).query q filters (some limit)
        (some offset) = []) := by
  have hq := query_eq_drop_take (PlantQueryEngine.build records) q filters
    limit offset hl ho
  refine ⟨finalCandidates_pairwise _ _ _, hq, ?_, ?_, ?_⟩
  · rw [hq, List.length_take]
    exact min_le_left _ _
  · intro h
    rw [hq, List.drop_eq_nil_of_le (by rw [List.length_map]; exact h)]
    exact List.take_nil
  · rintro rfl
    rw [hq]
    rfl

/-- witness for C3 at scenario 3 of the specification: `limit = 1`,
`offset = 0` on the two-record Rosaceae collection. -/
theorem claim_C3_witness :
    (0 : Int) ≤ 1 ∧ (0 : Int) ≤ 0 ∧
    (List.Pairwise (· < ·)
      (finalCandidates (PlantQueryEngine.build sampleRosaceae) none
        [("family", Value.vstr "rosaceae")]) ∧
    (PlantQueryEngine.build sampleRosaceae).query none
        [("family", Value.vstr "rosaceae")] (some 1) (some 0) =
      (((finalCandidates (PlantQueryEngine.build sampleRosaceae) none
        [("family", Value.vstr "rosaceae")]).map
        (fun i => sampleRosaceae.getD i [])).drop (0 : Int).toNat).take
        (1 : Int).toNat ∧
    ((PlantQueryEngine.build sampleRosaceae).query none
        [("family", Value.vstr "rosaceae")] (some 1) (some 0)).length ≤
      (1 : Int).toNat ∧
    ((finalCandidates (PlantQueryEngine.build sampleRosaceae) none
        [("family", Value.vstr "rosaceae")]).length ≤ (0 : Int).toNat →
      (PlantQueryEngine.build sampleRosaceae).query none
        [("family", Value.vstr "rosaceae")] (some 1) (some 0) = []) ∧
    ((1 : Int) = 0 →
      (PlantQueryEngine.build sampleRosaceae).query none
        [("family", Value.vstr "rosaceae")] (some 1) (some 0) = [])) :=
  ⟨by decide, by decide,
    claim_C3 sampleRosaceae none [("family", Value.vstr "rosaceae")] 1 0
      (by decide) (by decide)⟩

/-- C4: tokenization is total, the absent sentinel and the empty string
yield the empty sequence, the output equals the reference
pipeline of the specification (so order and duplicates are preserved), and every returned
token is lowercase alphanumeric of length at least two. -/
theorem claim_C4 (s : String) :
    tokenize none = [] ∧ tokenize (some "") = [] ∧
    tokenize (some s) = tokenizeSpec s ∧
    ∀ t ∈ tokenize (some s), 2 ≤ t.length ∧
      ∀ c ∈ t.data, isLowerAlnum c = true :=
  ⟨rfl, rfl, tokenize_eq_tokenizeSpec s,
    fun t ht => tokenize_token_shape s t ht⟩

/-- witness for C4 at a punctuation-and-case-heavy input. -/
theorem claim_C4_witness :
    tokenize none = [] ∧ tokenize (some "") = [] ∧
    tokenize (some "  Héllo, WORLD-42! a ") =
      tokenizeSpec "  Héllo, WORLD-42! a " ∧
    ∀ t ∈ tokenize (some "  Héllo, WORLD-42! a "), 2 ≤ t.length ∧
      ∀ c ∈ t.data, isLowerAlnum c = true :=
  claim_C4 "  Héllo, WORLD-42! a "

/-- counterexample to C5: the engine performs no validation of negative
pagination values.  On a three-record engine, `offset = -1` is neither
reported as invalid nor clamped to zero: the slice interprets it
end-relatively and silently returns the last record, a result distinct
from the clamped-to-zero result and from the empty sequence. -/
theorem claim_C5_counterexample :
    (PlantQueryEngine.build sampleThree).query none [] (some 20)
        (some (-1)) = [[("plant_id", "3")]] ∧
    (PlantQueryEngine.build sampleThree).query none [] (some 20)
        (some 0) =
      [[("plant_id", "1")], [("plant_id", "2")], [("plant_id", "3")]] ∧
    (PlantQueryEngine.build sampleThree).query none [] (some 20)
        (some (-1)) ≠ [] := by
  refine ⟨?_, ?_, ?_⟩ <;> decide

/-- C5 (amended): negative `limit` or `offset` are not reported as an
invalid-argument condition; the engine passes them unchanged to the slice
step, whose JavaScript semantics interpret a negative index relative to
the end of the result sequence.  In particular, for a negative offset
within range and a limit reaching the end, the query silently returns the
last `-offset` candidate records. -/
theorem claim_C5 (e : PlantQueryEngine) (q : Option String)
    (filters : List (String × Value)) (limit offset : Int)
    (hneg : offset < 0)
    (hlo : 0 ≤ ((finalCandidates e q filters).length : Int) + offset)
    (hhi : ((finalCandidates e q filters).length : Int) ≤ offset + limit) :
    e.query q filters (some limit) (some offset) =
      ((finalCandidates e q filters).map
        (fun i => e.records.getD i [])).drop
        (((finalCandidates e q filters).length : Int) + offset).toNat := by
  show jsSlice ((finalCandidates e q filters).map
      (fun i => e.records.getD i [])) offset (offset + limit) = _
  set res := (finalCandidates e q filters).map
    (fun i => e.records.getD i []) with hres
  have hlen : res.length = (finalCandidates e q filters).length := by
    rw [hres]; exact List.length_map _ _
  unfold jsSlice jsSliceBound
  rw [if_pos hneg, if_neg (show ¬(offset + limit < 0) by omega)]
  have h1 : max ((res.length : Int) + offset) 0 =
      (res.length : Int) + offset := by
    rw [hlen]; omega
  rw [h1]
  have h2 : min (offset + limit).toNat res.length = res.length := by
    rw [hlen]; omega
  rw [h2, hlen]
  exact List.take_of_length_le
    (le_of_eq (by rw [List.length_drop, hlen]))

/-- witness for C5 (amended) at the three-record engine with
`offset = -1`, `limit = 20`. -/
theorem claim_C5_witness :
    (-1 : Int) < 0 ∧
    (0 : Int) ≤ ((finalCandidates (PlantQueryEngine.build sampleThree)
      none []).length : Int) + (-1) ∧
    ((finalCandidates (PlantQueryEngine.build sampleThree) none
      []).length : Int) ≤ (-1) + 20 ∧
    (PlantQueryEngine.build sampleThree).query none [] (some 20)
        (some (-1)) =
      ((finalCandidates (PlantQueryEngine.build sampleThree) none []).map
        (fun i => (PlantQueryEngine.build sampleThree).records.getD
          i [])).drop
        (((finalCandidates (PlantQueryEngine.build sampleThree) none
          []).length : Int) + (-1)).toNat :=
  ⟨by decide, by decide, by decide,
    claim_C5 (PlantQueryEngine.build sampleThree) none [] 20 (-1)
      (by decide) (by decide) (by decide)⟩

/-- counterexample to C6: the engine itself does substitute defaults in `query`
for unspecified pagination parameters — with both omitted it returns 20
of the 25 records, exactly the destructuring defaults
`limit = 20, offset = 0`. -/
theorem claim_C6_counterexample :
    ((PlantQueryEngine.build (List.replicate 25 ([] : Record))).query
        none [] none none).length = 20 ∧
    (List.replicate 25 ([] : Record)).length = 25 := by
  refine ⟨?_, ?_⟩ <;> decide

/-- C6 (amended): when `limit` or `offset` are unspecified, the `query`
operation of the engine itself substitutes the defaults `limit = 20, offset = 0`
(in addition to the request layer doing the same before calling it):
omitting both arguments is exactly a `limit = 20, offset = 0` query. -/
theorem claim_C6 (e : PlantQueryEngine) (q : Option String)
    (filters : List (String × Value)) :
    e.query q filters none none = e.query q filters (some 20) (some 0) :=
  rfl

/-- C7: index/query key compatibility — a record with a truthy value on a
whitelisted field is found by filtering on that field with the same raw
value or any casing variant of it, because build and query share one
normalization. -/
theorem claim_C7 (records : List Record) (i : Nat) (field v w : String)
    (hi : i < records.length) (hf : field ∈ whitelist)
    (hrec : List.lookup field (records.getD i []) = some v) (hv : v ≠ "")
    (hw : strLower w = strLower v) :
    i ∈ finalCandidates (PlantQueryEngine.build records) none
      [(field, Value.vstr w)] := by
  have hmem : i ∈ fieldPosting (PlantQueryEngine.build records).fieldIndex
      field (strLower v) :=
    (mem_fieldPosting_build records field (strLower v) i).mpr
      ⟨hi, hf, v, hrec, hv, rfl⟩
  show i ∈ filterStage (PlantQueryEngine.build records)
    [(field, Value.vstr w)]
    (fulltextStage (PlantQueryEngine.build records) none
      (List.range records.length))
  rw [mem_filterStage]
  refine ⟨List.mem_range.mpr hi, ?_⟩
  intro fv hfv
  rcases List.mem_singleton.mp hfv with rfl
  unfold filterPass
  dsimp only
  cases hl : List.lookup field
      (PlantQueryEngine.build records).fieldIndex with
  | none =>
    exfalso
    unfold fieldPosting at hmem
    rw [hl] at hmem
    cases hmem
  | some fmap =>
    rw [decide_eq_true_eq]
    show i ∈ postingOf fmap (strLower w)
    rw [hw]
    unfold fieldPosting at hmem
    rw [hl] at hmem
    exact hmem

/-- witness for C7: `family="Rosaceae"` queried as `"ROSACEAE"` finds
record 0. -/
theorem claim_C7_witness :
    0 < sampleRosaceae.length ∧ "family" ∈ whitelist ∧
    List.lookup "family" (sampleRosaceae.getD 0 []) = some "Rosaceae" ∧
    "Rosaceae" ≠ "" ∧ strLower "ROSACEAE" = strLower "Rosaceae" ∧
    0 ∈ finalCandidates (PlantQueryEngine.build sampleRosaceae) none
      [("family", Value.vstr "ROSACEAE")] :=
  ⟨by decide, by decide, by decide, by decide, by decide,
    claim_C7 sampleRosaceae 0 "family" "Rosaceae" "ROSACEAE" (by decide)
      (by decide) (by decide) (by decide) (by decide)⟩

/-- C8: AND semantics across filters — appending one more filter pair to
a query never increases the number of returned records, for any
non-negative pagination. -/
theorem claim_C8 (records : List Record) (q : Option String)
    (F : List (String × Value)) (f : String) (v : Value)
    ( _hnew : f ∉ F.map Prod.fst) (limit offset : Int)
    (hl : 0 ≤ limit) (ho : 0 ≤ offset) :
    ((PlantQueryEngine.build records).query q (F ++ [(f, v)]) (some limit)
        (some offset)).length ≤
      ((PlantQueryEngine.build records).query q F (some limit)
        (some offset)).length := by
  rw [query_eq_drop_take _ q _ limit offset hl ho,
    query_eq_drop_take _ q F limit offset hl ho]
  have hsub : List.Sublist
      (finalCandidates (PlantQueryEngine.build records) q (F ++ [(f, v)]))
      (finalCandidates (PlantQueryEngine.build records) q F) := by
    unfold finalCandidates
    rw [filterStage_append]
    exact filterStage_sublist _ [(f, v)] _
  have hlen := hsub.length_le
  rw [List.length_take, List.length_take, List.length_drop,
    List.length_drop, List.length_map, List.length_map]
  omega

/-- witness for C8: adding `plant_id = "1"` to an unfiltered query over
the Rosaceae collection. -/
theorem claim_C8_witness :
    "plant_id" ∉ ([] : List (String × Value)).map Prod.fst ∧
    (0 : Int) ≤ 20 ∧ (0 : Int) ≤ 0 ∧
    ((PlantQueryEngine.build sampleRosaceae).query none
        ([] ++ [("plant_id", Value.vstr "1")]) (some 20)
        (some 0)).length ≤
      ((PlantQueryEngine.build sampleRosaceae).query none [] (some 20)
        (some 0)).length :=
  ⟨by decide, by decide, by decide,
    claim_C8 sampleRosaceae none [] "plant_id" (Value.vstr "1")
      (by decide) 20 0 (by decide) (by decide)⟩

/-- C9: a phrase that is absent, empty, or tokenizes to zero terms makes
the full-text stage a no-op, so the query result is exactly the result of
the same query with no phrase at all — free-text emptiness never rejects
the query by itself. -/
theorem claim_C9 (e : PlantQueryEngine) (q : Option String)
    (hq : tokenize q = []) :
    (∀ cands, fulltextStage e q cands = cands) ∧
    ∀ filters limit? offset?,
      e.query q filters limit? offset? =
        e.query none filters limit? offset? := by
  refine ⟨fun cands => fulltextStage_of_tokenize_nil e q hq cands, ?_⟩
  intro filters limit? offset?
  unfold PlantQueryEngine.query finalCandidates
  rw [fulltextStage_of_tokenize_nil e q hq]
  rfl

/-- witness for C9 at the phrase `"a !"`, which tokenizes to nothing. -/
theorem claim_C9_witness :
    tokenize (some "a !") = [] ∧
    ((∀ cands, fulltextStage (PlantQueryEngine.build sampleThree)
        (some "a !") cands = cands) ∧
    ∀ filters limit? offset?,
      (PlantQueryEngine.build sampleThree).query (some "a !") filters
          limit? offset? =
        (PlantQueryEngine.build sampleThree).query none filters limit?
          offset?) :=
  ⟨by decide,
    claim_C9 (PlantQueryEngine.build sampleThree) (some "a !") (by decide)⟩

/-- C10: a whitelisted field for which no record has a truthy value gets
no field-index entry, so a filter on it falls through to the raw,
case-sensitive strict-equality scan — the same path as non-whitelisted
fields, with no case-insensitive matching. -/
theorem claim_C10 (records : List Record) (field : String)
    ( _hf : field ∈ whitelist)
    (hno : ∀ r ∈ records, ∀ s, List.lookup field r = some s → s = "") :
    List.lookup field (PlantQueryEngine.build records).fieldIndex =
      none ∧
    ∀ cands value,
      applyFilter (PlantQueryEngine.build records) cands (field, value) =
        cands.filter (fun idx =>
          jsStrictEq (List.lookup field (records.getD idx [])) value) := by
  have hnone : List.lookup field
      (PlantQueryEngine.build records).fieldIndex = none := by
    cases hl : List.lookup field
        (PlantQueryEngine.build records).fieldIndex with
    | none => rfl
    | some fmap =>
      have h := (isSome_lookup_fieldIndex_build records field).mp
        (by rw [hl]; rfl)
      obtain ⟨-, r, hr, s, hs, hne⟩ := h
      exact absurd (hno r hr s hs) hne
  refine ⟨hnone, ?_⟩
  intro cands value
  unfold applyFilter
  dsimp only
  rw [hnone]
  rfl

/-- witness for C10: one record with `family = ""` (falsy, so never
indexed). -/
theorem claim_C10_witness :
    "family" ∈ whitelist ∧
    (∀ r ∈ sampleEmptyFamily, ∀ s,
      List.lookup "family" r = some s → s = "") ∧
    (List.lookup "family"
        (PlantQueryEngine.build sampleEmptyFamily).fieldIndex = none ∧
    ∀ cands value,
      applyFilter (PlantQueryEngine.build sampleEmptyFamily) cands
          ("family", value) =
        cands.filter (fun idx =>
          jsStrictEq (List.lookup "family" (sampleEmptyFamily.getD idx []))
            value)) := by
  have hno : ∀ r ∈ sampleEmptyFamily, ∀ s,
      List.lookup "family" r = some s → s = "" := by
    intro r hr s hs
    rcases List.mem_singleton.mp hr with rfl
    simp [List.lookup] at hs
    exact hs.symm
  exact ⟨by decide, hno, claim_C10 sampleEmptyFamily "family" (by decide)
    hno⟩

end Plotify
